import Mathlib

/-!
Verification of the retrieval-augmented-generation (RAG) pipeline:
the chunker (`src/chunking.py`, `get_chunks`), the top-K retriever
(`src/retrieval.py`, `search_best_chunks`) and the orchestrator's
source add/remove handlers (`src/app.py`).

Python strings are modelled as `List Char`, Python ints as `ℤ`
(restricted to `ℕ` where a claim constrains the range), similarity
scores as `ℚ`.  The external collaborators (the sentence-transformers
encoder and `torch`'s `cos_sim`) are opaque capabilities and enter the
embedding as function parameters; `torch.topk` is modelled explicitly
since the ranking behavior under verification lives there.
-/

namespace RAG

/-- Resolution of one endpoint of a Python slice `s[a:b]` over a sequence of
length `n`: a negative index has `n` added and is clamped below at `0`; a
non-negative index is clamped above at `n`. -/
def pyIndex (n : ℕ) (i : ℤ) : ℕ :=
  if i < 0 then ((n : ℤ) + i).toNat else min i.toNat n

/-- Python slice `s[a:b]`: the elements with positions in
`[pyIndex a, pyIndex b)`. -/
def pySlice (s : List Char) (a b : ℤ) : List Char :=
  (s.take (pyIndex s.length b)).drop (pyIndex s.length a)

/-- The loop of `get_chunks` in `src/chunking.py`, made total with a fuel
counter bounding the number of iterations (the Python loop has no such bound;
`none` means the fuel was exhausted with the loop still running):

    while start < text_length:
        end = start + chunk_size
        chunks = text[start:end]
        sliced.append(chunks)
        start += (chunk_size - overlap)
-/
def get_chunksAux (text : List Char) (chunk_size overlap : ℤ) :
    ℕ → ℤ → Option (List (List Char))
  | 0, start =>
    if start < (text.length : ℤ) then none else some []
  | fuel + 1, start =>
    if start < (text.length : ℤ) then
      (get_chunksAux text chunk_size overlap fuel (start + (chunk_size - overlap))).map
        (fun rest => pySlice text start (start + chunk_size) :: rest)
    else some []

/-- `get_chunks(text, chunk_size, overlap)` run for at most `fuel` loop
iterations, starting from `start = 0`. -/
def get_chunksFuel (fuel : ℕ) (text : List Char) (chunk_size overlap : ℤ) :
    Option (List (List Char)) :=
  get_chunksAux text chunk_size overlap fuel 0

/-- `get_chunks` with fuel `len(text) + 1`, which suffices for every
terminating run (whenever `chunk_size - overlap ≥ 1` the offset `start`
advances by at least one per iteration). -/
def get_chunks (text : List Char) (chunk_size overlap : ℤ) : Option (List (List Char)) :=
  get_chunksFuel (text.length + 1) text chunk_size overlap

/-- Closed description of the chunk list produced by the loop from offset
`start` with window `cs` and positive stride `step`: one window per start
offset `start + n * step` below `text.length`. -/
def chunkSpec (text : List Char) (cs step start : ℕ) : List (List Char) :=
  (List.range ((text.length - start + (step - 1)) / step)).map
    (fun n => (text.drop (start + n * step)).take cs)

/-- The character spans `[start, start + length)` of a chunk list whose `i`-th
element was cut starting at offset `i * step`. -/
def chunkSpans (l : List (List Char)) (step : ℕ) : List (ℕ × ℕ) :=
  l.enum.map (fun p => (p.1 * step, p.1 * step + p.2.length))

/-- Number of character positions two half-open spans have in common. -/
def spanInterLen (s t : ℕ × ℕ) : ℕ :=
  min s.2 t.2 - max s.1 t.1

theorem pySlice_natCast (s : List Char) (start cs : ℕ) :
    pySlice s (start : ℤ) ((start : ℤ) + (cs : ℤ)) = (s.drop start).take cs := by
  have hb : pyIndex s.length ((start : ℤ) + (cs : ℤ)) = min (start + cs) s.length := by
    rw [pyIndex, if_neg (by omega)]
    omega
  have ha : pyIndex s.length (start : ℤ) = min start s.length := by
    rw [pyIndex, if_neg (by omega)]
    omega
  rw [pySlice, hb, ha]
  rcases Nat.le_total s.length start with hle | hle
  · have h1 : s.drop start = [] := List.drop_eq_nil_iff.mpr (by omega)
    have h2 : min start s.length = s.length := by omega
    rw [h1, List.take_nil, h2]
    apply List.drop_eq_nil_iff.mpr
    simp [List.length_take]
  · have h2 : min start s.length = start := by omega
    rw [h2, List.drop_take, List.take_eq_take]
    simp [List.length_drop]
    omega

theorem chunkSpec_stop (text : List Char) (cs step start : ℕ) (hstep : 0 < step)
    (h : text.length ≤ start) : chunkSpec text cs step start = [] := by
  unfold chunkSpec
  have h0 : text.length - start = 0 := by omega
  have hdiv : (0 + (step - 1)) / step = 0 := Nat.div_eq_of_lt (by omega)
  rw [h0, hdiv]
  simp

theorem chunkSpec_cons (text : List Char) (cs step start : ℕ) (hstep : 0 < step)
    (h : start < text.length) :
    chunkSpec text cs step start =
      (text.drop start).take cs :: chunkSpec text cs step (start + step) := by
  unfold chunkSpec
  have hcount : (text.length - start + (step - 1)) / step =
      (text.length - (start + step) + (step - 1)) / step + 1 := by
    rcases Nat.le_total step (text.length - start) with hc | hc
    · have he : text.length - start + (step - 1) =
          (text.length - (start + step) + (step - 1)) + step := by omega
      rw [he, Nat.add_div_right _ hstep]
    · have h1 : text.length - (start + step) = 0 := by omega
      have h2 : (text.length - start + (step - 1)) / step = 1 := by
        apply Nat.div_eq_of_lt_le <;> omega
      have h3 : (0 + (step - 1)) / step = 0 := Nat.div_eq_of_lt (by omega)
      rw [h1, h2, h3]
  rw [hcount, List.range_succ_eq_map]
  simp only [List.map_cons, List.map_map]
  congr 1
  · simp
  · apply List.map_congr_left
    intro n _
    have harith : start + Nat.succ n * step = start + step + n * step := by
      rw [Nat.succ_mul]
      omega
    simp only [Function.comp_apply]
    rw [harith]

theorem get_chunksAux_valid (text : List Char) (cs ov : ℕ) (h : ov < cs) :
    ∀ (fuel start : ℕ), text.length ≤ start + fuel →
      get_chunksAux text (cs : ℤ) (ov : ℤ) fuel (start : ℤ) =
        some (chunkSpec text cs (cs - ov) start) := by
  intro fuel
  induction fuel with
  | zero =>
    intro start hfuel
    rw [get_chunksAux, if_neg (by exact_mod_cast Nat.not_lt.mpr (by omega))]
    rw [chunkSpec_stop _ _ _ _ (by omega) (by omega)]
  | succ fuel ih =>
    intro start hfuel
    rw [get_chunksAux]
    by_cases hs : start < text.length
    · rw [if_pos (by exact_mod_cast hs)]
      have hcast : (start : ℤ) + ((cs : ℤ) - (ov : ℤ)) = ((start + (cs - ov) : ℕ) : ℤ) := by
        push_cast [Nat.cast_sub (le_of_lt h)]
        ring
      rw [hcast, ih (start + (cs - ov)) (by omega)]
      rw [chunkSpec_cons _ _ _ _ (by omega) hs]
      have hslice : pySlice text (start : ℤ) ((start : ℤ) + (cs : ℤ)) =
          (text.drop start).take cs := pySlice_natCast text start cs
      simp [hslice]
    · rw [if_neg (by exact_mod_cast hs)]
      rw [chunkSpec_stop _ _ _ _ (by omega) (by omega)]

theorem get_chunks_valid (text : List Char) (cs ov : ℕ) (h : ov < cs) :
    get_chunks text (cs : ℤ) (ov : ℤ) = some (chunkSpec text cs (cs - ov) 0) := by
  have h0 : ((0 : ℕ) : ℤ) = (0 : ℤ) := rfl
  rw [get_chunks, get_chunksFuel, ← h0]
  exact get_chunksAux_valid text cs ov h (text.length + 1) 0 (by omega)

theorem get_chunksAux_stuck (text : List Char) (cs ov : ℤ) (hstep : cs ≤ ov)
    (hL : 0 < text.length) :
    ∀ (fuel : ℕ) (start : ℤ), start ≤ 0 → get_chunksAux text cs ov fuel start = none := by
  intro fuel
  induction fuel with
  | zero =>
    intro start hstart
    have hcond : start < (text.length : ℤ) := by
      have hL2 : (0 : ℤ) < (text.length : ℤ) := by exact_mod_cast hL
      omega
    rw [get_chunksAux, if_pos hcond]
  | succ fuel ih =>
    intro start hstart
    have hcond : start < (text.length : ℤ) := by
      have hL2 : (0 : ℤ) < (text.length : ℤ) := by exact_mod_cast hL
      omega
    rw [get_chunksAux, if_pos hcond, ih (start + (cs - ov)) (by omega)]
    rfl

theorem get_chunksAux_total (text : List Char) (cs ov : ℤ) (hstep : ov < cs) :
    ∀ (fuel : ℕ) (start : ℤ), (text.length : ℤ) ≤ start + fuel →
      (get_chunksAux text cs ov fuel start).isSome := by
  intro fuel
  induction fuel with
  | zero =>
    intro start hfuel
    rw [get_chunksAux, if_neg (by push_cast at hfuel; omega)]
    rfl
  | succ fuel ih =>
    intro start hfuel
    rw [get_chunksAux]
    by_cases hs : start < (text.length : ℤ)
    · rw [if_pos hs]
      have hrec := ih (start + (cs - ov)) (by push_cast at hfuel ⊢; omega)
      rcases Option.isSome_iff_exists.mp hrec with ⟨l, hl⟩
      rw [hl]
      rfl
    · rw [if_neg hs]
      rfl

/-- Ranking order used to model `torch.topk`: higher score first; for exactly
equal scores, lower original index first. -/
def rankLE (a b : ℕ × ℚ) : Prop :=
  b.2 < a.2 ∨ (a.2 = b.2 ∧ a.1 ≤ b.1)

instance : DecidableRel rankLE := fun a b => by
  unfold rankLE
  infer_instance

instance : IsTotal (ℕ × ℚ) rankLE :=
  ⟨by
    intro a b
    rcases lt_trichotomy a.2 b.2 with hlt | heq | hgt
    · exact Or.inr (Or.inl hlt)
    · rcases Nat.le_total a.1 b.1 with hle | hle
      · exact Or.inl (Or.inr ⟨heq, hle⟩)
      · exact Or.inr (Or.inr ⟨heq.symm, hle⟩)
    · exact Or.inl (Or.inl hgt)⟩

instance : IsTrans (ℕ × ℚ) rankLE :=
  ⟨by
    intro a b c hab hbc
    rcases hab with h1 | ⟨h1, h1i⟩ <;> rcases hbc with h2 | ⟨h2, h2i⟩
    · exact Or.inl (lt_trans h2 h1)
    · exact Or.inl (lt_of_lt_of_le (lt_of_le_of_lt (le_of_eq h2.symm) h1) le_rfl)
    · exact Or.inl (lt_of_lt_of_le h2 (le_of_eq h1.symm))
    · exact Or.inr ⟨h1.trans h2, h1i.trans h2i⟩⟩

/-- Model of `torch.topk(scores, k=k)` over the single score row, with the
default `sorted=True`: the `k` highest entries, each with its original index,
in descending score order.  `torch` raises `RuntimeError: selected index k out
of range` when `k` exceeds the row length.  `torch` does not document the
relative order of entries whose values are exactly equal; this model fixes one
refinement of that behavior, lower original index first. -/
def torchTopk (scores : List ℚ) (k : ℕ) : Except String (List (ℕ × ℚ)) :=
  if k ≤ scores.length then
    Except.ok ((List.insertionSort rankLE scores.enum).take k)
  else Except.error "selected index k out of range"

/-- The packaging loop of `search_best_chunks`: for each of the top results
`(idx, score)` in order, append `(chunks[idx], score)`; Python raises
`IndexError` when `idx` is out of range for `chunks`. -/
def packResults (chunks : List String) : List (ℕ × ℚ) → Except String (List (String × ℚ))
  | [] => Except.ok []
  | p :: rest =>
    match chunks[p.1]? with
    | none => Except.error "list index out of range"
    | some t =>
      match packResults chunks rest with
      | Except.error e => Except.error e
      | Except.ok r => Except.ok ((t, p.2) :: r)

/-- `search_best_chunks(query, model, db_vectors, chunks, k)` from
`src/retrieval.py`: encode the query, score it against every row of
`db_vectors`, take the top `k` and package `(chunk text, score)` pairs.
`encode` (the sentence-transformers model's `encode`) and `cos_sim`
(`sentence_transformers.util.cos_sim` restricted to one query row) are
external library capabilities, so they are parameters of the embedding;
the claims under verification do not constrain their values. -/
def search_best_chunks (encode : String → List ℚ) (cos_sim : List ℚ → List ℚ → ℚ)
    (query : String) (db_vectors : List (List ℚ)) (chunks : List String) (k : ℕ) :
    Except String (List (String × ℚ)) :=
  let query_vector := encode query
  let scores := db_vectors.map (cos_sim query_vector)
  match torchTopk scores k with
  | Except.error e => Except.error e
  | Except.ok top_results => packResults chunks top_results

theorem packResults_ok (chunks : List String) :
    ∀ (ps : List (ℕ × ℚ)) (r : List (String × ℚ)), packResults chunks ps = Except.ok r →
      List.Forall₂ (fun (p : ℕ × ℚ) (q : String × ℚ) =>
        chunks[p.1]? = some q.1 ∧ p.2 = q.2) ps r := by
  intro ps
  induction ps with
  | nil =>
    intro r hr
    simp only [packResults] at hr
    cases hr
    exact List.Forall₂.nil
  | cons p rest ih =>
    intro r hr
    simp only [packResults] at hr
    cases hget : chunks[p.1]? with
    | none =>
      rw [hget] at hr
      cases hr
    | some t =>
      rw [hget] at hr
      cases hrest : packResults chunks rest with
      | error e =>
        rw [hrest] at hr
        cases hr
      | ok r2 =>
        rw [hrest] at hr
        cases hr
        exact List.Forall₂.cons ⟨hget, rfl⟩ (ih r2 hrest)

theorem packResults_total (chunks : List String) :
    ∀ (ps : List (ℕ × ℚ)), (∀ p ∈ ps, p.1 < chunks.length) →
      ∃ r, packResults chunks ps = Except.ok r ∧ r.length = ps.length := by
  intro ps
  induction ps with
  | nil =>
    intro _
    exact ⟨[], rfl, rfl⟩
  | cons p rest ih =>
    intro hmem
    have hp : p.1 < chunks.length := hmem p (List.mem_cons_self p rest)
    rcases ih (fun q hq => hmem q (List.mem_cons_of_mem p hq)) with ⟨r2, hr2, hlen⟩
    refine ⟨(chunks[p.1], p.2) :: r2, ?_, by simp [hlen]⟩
    simp only [packResults, List.getElem?_eq_getElem hp, hr2]

theorem forall2_mem_right {α β : Type} {R : α → β → Prop} :
    ∀ {ps : List α} {r : List β}, List.Forall₂ R ps r → ∀ q ∈ r, ∃ p ∈ ps, R p q := by
  intro ps r h
  induction h with
  | nil =>
    intro q hq
    cases hq
  | @cons p q ps2 r2 hR hF ih =>
    intro x hx
    rcases List.mem_cons.mp hx with rfl | hx2
    · exact ⟨p, List.mem_cons_self p ps2, hR⟩
    · rcases ih x hx2 with ⟨p2, hp2, hp2R⟩
      exact ⟨p2, List.mem_cons_of_mem p hp2, hp2R⟩

theorem forall2_map_snd {chunks : List String} :
    ∀ {ps : List (ℕ × ℚ)} {r : List (String × ℚ)},
      List.Forall₂ (fun (p : ℕ × ℚ) (q : String × ℚ) =>
        chunks[p.1]? = some q.1 ∧ p.2 = q.2) ps r →
      ps.map Prod.snd = r.map Prod.snd := by
  intro ps r h
  induction h with
  | nil => rfl
  | cons hR hF ih => simp [ih, hR.2]

theorem torchTopk_ok (scores : List ℚ) (k : ℕ) (tr : List (ℕ × ℚ))
    (h : torchTopk scores k = Except.ok tr) :
    k ≤ scores.length ∧ List.Pairwise rankLE tr ∧ tr.length = k ∧
      ∀ p ∈ tr, scores[p.1]? = some p.2 := by
  rw [torchTopk] at h
  by_cases hk : k ≤ scores.length
  · rw [if_pos hk] at h
    cases h
    refine ⟨hk, ?_, ?_, ?_⟩
    · exact List.Pairwise.sublist (List.take_sublist _ _)
        (List.sorted_insertionSort rankLE scores.enum)
    · rw [List.length_take]
      have hperm := List.perm_insertionSort rankLE scores.enum
      rw [hperm.length_eq, List.enum_length]
      omega
    · intro p hp
      have hmem : p ∈ List.insertionSort rankLE scores.enum := List.mem_of_mem_take hp
      have henum : p ∈ scores.enum := (List.perm_insertionSort rankLE scores.enum).mem_iff.mp hmem
      exact List.mem_enum_iff_getElem?.mp henum
  · rw [if_neg hk] at h
    cases h

/-- Session state of the orchestrator in `src/app.py` relevant to the corpus
invariant: `st.session_state.full_text` and the list of source names
`st.session_state.sources`.  `source_texts` is a ghost field recording the raw
text of each currently active source in addition order; the app itself keeps
no per-source text (only the accumulated `full_text`), which is exactly what
the corpus invariant under verification is about. -/
structure AppState where
  full_text : List Char
  sources : List String
  source_texts : List (List Char)
deriving DecidableEq

/-- The blank-line separator the upload handlers place before each appended
source text (`st.session_state.full_text += "\n\n" + pdf_text`). -/
def sepBlank : List Char := ['\n', '\n']

/-- The add-source path of the upload handlers in `src/app.py` (the PDF and
YouTube handlers are identical in this respect): skip when the name is already
present, else append the separator and the raw text to `full_text` and record
the source. -/
def addSource (st : AppState) (name : String) (text : List Char) : AppState :=
  if name ∈ st.sources then st
  else
    ⟨st.full_text ++ sepBlank ++ text, st.sources ++ [name], st.source_texts ++ [text]⟩

/-- The delete-source handler in `src/app.py`: pop the source at `idx`; if
sources remain, re-chunk and re-embed `st.session_state.full_text` as it
stands (the handler does not recompute `full_text`); if none remain, reset
`full_text` to the empty string. -/
def deleteSource (st : AppState) (idx : ℕ) : AppState :=
  let sources2 := st.sources.eraseIdx idx
  let texts2 := st.source_texts.eraseIdx idx
  if sources2.isEmpty then ⟨[], [], []⟩
  else ⟨st.full_text, sources2, texts2⟩

/-- A user action on the source set. -/
inductive SourceOp where
  | add (name : String) (text : List Char)
  | remove (idx : ℕ)

/-- Initial session state: `full_text = ""`, no sources. -/
def initialState : AppState := ⟨[], [], []⟩

/-- One sidebar action. -/
def applyOp (st : AppState) : SourceOp → AppState
  | SourceOp.add name text => addSource st name text
  | SourceOp.remove idx => deleteSource st idx

/-- The session state after a sequence of add/remove actions from startup. -/
def runOps (ops : List SourceOp) : AppState :=
  ops.foldl applyOp initialState

/-- The corpus recomputed from the raw texts of the active sources, joined the
way the add path joins them (a blank-line separator before each text). -/
def corpusOf (texts : List (List Char)) : List Char :=
  (texts.map (fun t => sepBlank ++ t)).flatten

/-- C1: the spec requires `chunk(text, size=100, overlap=100)` and
`chunk(text, size=100, overlap=150)` to raise `InvalidConfiguration` before
any chunking work; `get_chunks` has no such check, and on the failing input
`text = "a"` its loop never terminates for either configuration: whatever
iteration bound (fuel) the loop is given, it is exhausted with the loop still
running, so no chunk list — and no exception — is ever produced. -/
theorem c1_invalid_config_never_rejected :
    (∀ fuel, get_chunksFuel fuel "a".toList 100 100 = none) ∧
      (∀ fuel, get_chunksFuel fuel "a".toList 100 150 = none) := by
  constructor
  · intro fuel
    exact get_chunksAux_stuck "a".toList 100 100 (by norm_num) (by decide) fuel 0 le_rfl
  · intro fuel
    exact get_chunksAux_stuck "a".toList 100 150 (by norm_num) (by decide) fuel 0 le_rfl

/-- C10: the chunking loop terminates exactly when the text is empty or
`chunk_size > overlap`: some iteration bound (fuel) suffices if and only if
that condition holds; in particular for non-empty text with
`chunk_size ≤ overlap` every bound is exhausted (`start` never advances past
the text length). -/
theorem c10_termination_iff (text : List Char) (chunk_size overlap : ℤ) :
    (∃ fuel l, get_chunksFuel fuel text chunk_size overlap = some l) ↔
      (text.length = 0 ∨ overlap < chunk_size) := by
  constructor
  · intro hterm
    by_contra hcon
    push_neg at hcon
    rcases hterm with ⟨fuel, l, hl⟩
    rw [get_chunksFuel, get_chunksAux_stuck text chunk_size overlap hcon.2
      (by omega) fuel 0 le_rfl] at hl
    cases hl
  · intro hc
    rcases hc with hL | hstep
    · refine ⟨0, [], ?_⟩
      rw [get_chunksFuel, get_chunksAux, if_neg (by rw [hL]; norm_num)]
    · have hsome := get_chunksAux_total text chunk_size overlap hstep text.length 0
        (by omega)
      rcases Option.isSome_iff_exists.mp hsome with ⟨l, hl⟩
      exact ⟨text.length, l, hl⟩

/-- C6: the claim says the corpus always equals the join of the active
sources' raw texts, recomputed on every change including removal.  The code
violates it: after adding sources "a" (text `A`) and "b" (text `B`) and then
deleting source 0, `full_text` still contains the removed text `A` — the
delete handler pops the source entry but re-embeds the stale `full_text`
instead of recomputing the corpus from the remaining sources. -/
theorem c6_corpus_not_recomputed :
    runOps [SourceOp.add "a" ['A'], SourceOp.add "b" ['B'], SourceOp.remove 0] =
        ⟨['\n', '\n', 'A', '\n', '\n', 'B'], ["b"], [['B']]⟩ ∧
      corpusOf [['B']] = ['\n', '\n', 'B'] ∧
      (runOps [SourceOp.add "a" ['A'], SourceOp.add "b" ['B'],
          SourceOp.remove 0]).full_text ≠
        corpusOf (runOps [SourceOp.add "a" ['A'], SourceOp.add "b" ['B'],
          SourceOp.remove 0]).source_texts := by
  refine ⟨?_, ?_, ?_⟩ <;> decide

theorem chunkSpec_get (text : List Char) (cs step i : ℕ)
    (hi : i < (text.length - 0 + (step - 1)) / step) :
    (chunkSpec text cs step 0)[i]? = some ((text.drop (i * step)).take cs) := by
  rw [chunkSpec, List.getElem?_map, List.getElem?_range hi]
  simp

theorem chunkSpec_get_inv (text : List Char) (cs step i : ℕ) (c : List Char)
    (h : (chunkSpec text cs step 0)[i]? = some c) :
    i < (text.length - 0 + (step - 1)) / step ∧ c = (text.drop (i * step)).take cs := by
  rw [chunkSpec, List.getElem?_map] at h
  cases hr : (List.range ((text.length - 0 + (step - 1)) / step))[i]? with
  | none =>
    rw [hr] at h
    cases h
  | some n =>
    rw [hr, Option.map_some'] at h
    cases h
    rcases List.getElem?_eq_some.mp hr with ⟨hlt, hval⟩
    rw [List.getElem_range] at hval
    rw [List.length_range] at hlt
    subst hval
    exact ⟨hlt, by simp⟩

theorem chunkSpans_get_inv (l : List (List Char)) (step i : ℕ) (s : ℕ × ℕ)
    (h : (chunkSpans l step)[i]? = some s) :
    ∃ c, l[i]? = some c ∧ s = (i * step, i * step + c.length) := by
  rw [chunkSpans, List.getElem?_map, List.getElem?_enum] at h
  cases hc : l[i]? with
  | none =>
    rw [hc] at h
    cases h
  | some c =>
    rw [hc, Option.map_some', Option.map_some'] at h
    cases h
    exact ⟨c, rfl, rfl⟩

theorem chunkSpans_get (l : List (List Char)) (step i : ℕ) (c : List Char)
    (hc : l[i]? = some c) :
    (chunkSpans l step)[i]? = some (i * step, i * step + c.length) := by
  rw [chunkSpans, List.getElem?_map, List.getElem?_enum, hc, Option.map_some',
    Option.map_some']

/-- C4 counterexample: for text of length 10 with `size = 5`, `overlap = 3`
(a valid configuration, `0 ≤ 3 < 5`), the code produces 5 chunks (starts
0,2,4,6,8) while the claimed formula `ceil(max(L - overlap, 0) /
(size - overlap)) = ceil(7/2)` demands 4. -/
theorem c4_count_formula_counterexample :
    Option.map List.length (get_chunks "abcdefghij".toList 5 3) = some 5 ∧
      5 ≠ (max (10 - 3) 0 + (5 - 3) - 1) / (5 - 3) := by
  constructor
  · decide
  · decide

/-- C4 (amended): for every text and `0 ≤ overlap < size`, the number of
chunks is `ceil(L / (size - overlap))` — rendered over ℕ as
`(L + (size - overlap) - 1) / (size - overlap)`, which is 0 when `L = 0` —
not `ceil(max(L - overlap, 0) / (size - overlap))`. -/
theorem c4_chunk_count (text : List Char) (size overlap : ℕ) (h : overlap < size) :
    Option.map List.length (get_chunks text (size : ℤ) (overlap : ℤ)) =
      some ((text.length + (size - overlap) - 1) / (size - overlap)) := by
  rw [get_chunks_valid text size overlap h, Option.map_some']
  congr 1
  rw [chunkSpec, List.length_map, List.length_range]
  congr 1
  omega

theorem c4_chunk_count_witness :
    3 < 5 ∧ Option.map List.length (get_chunks "abcdefghij".toList 5 3) =
      some (("abcdefghij".toList.length + (5 - 3) - 1) / (5 - 3)) :=
  ⟨by decide, c4_chunk_count "abcdefghij".toList 5 3 (by decide)⟩

/-- C5 counterexample: text "abcd" is non-empty and shorter than `size = 5`,
and `overlap = 3` is valid, yet the code returns two chunks ("abcd" and the
trailing sub-window "cd"), not exactly one. -/
theorem c5_short_text_counterexample :
    get_chunks "abcd".toList 5 3 = some ["abcd".toList, "cd".toList] ∧
      Option.map List.length (get_chunks "abcd".toList 5 3) ≠ some 1 := by
  constructor
  · decide
  · decide

/-- C5 (amended): for non-empty text shorter than `size` and valid overlap,
the first chunk is the whole text, but the chunk is unique exactly when
`len(text) ≤ size - overlap`; otherwise trailing sub-windows of the text
follow it. -/
theorem c5_short_text (text : List Char) (size overlap : ℕ) (h : overlap < size)
    (h0 : 0 < text.length) (hshort : text.length < size) :
    ∃ l, get_chunks text (size : ℤ) (overlap : ℤ) = some l ∧
      l.head? = some text ∧ (l.length = 1 ↔ text.length ≤ size - overlap) := by
  refine ⟨chunkSpec text size (size - overlap) 0, get_chunks_valid text size overlap h,
    ?_, ?_⟩
  · rw [chunkSpec_cons text size (size - overlap) 0 (by omega) h0]
    rw [List.head?_cons, List.drop_zero, List.take_of_length_le (le_of_lt hshort)]
  · rw [chunkSpec, List.length_map, List.length_range]
    have hstep : 0 < size - overlap := by omega
    constructor
    · intro h1
      by_contra hgt
      push_neg at hgt
      have h2 : 2 ≤ (text.length - 0 + (size - overlap - 1)) / (size - overlap) := by
        rw [Nat.le_div_iff_mul_le hstep]
        omega
      omega
    · intro hle
      apply Nat.div_eq_of_lt_le <;> omega

theorem c5_short_text_witness :
    (3 < 5 ∧ 0 < "ab".toList.length ∧ "ab".toList.length < 5) ∧
      ∃ l, get_chunks "ab".toList 5 3 = some l ∧
        l.head? = some "ab".toList ∧ (l.length = 1 ↔ "ab".toList.length ≤ 5 - 3) :=
  ⟨⟨by decide, by decide, by decide⟩,
    c5_short_text "ab".toList 5 3 (by decide) (by decide) (by decide)⟩

/-- C9 counterexample: with `size = 5`, `overlap = 3` on a 10-character text,
the code's chunks are "abcde","cdefg","efghi","ghij","ij" with spans
(0,5),(2,7),(4,9),(6,10),(8,10); the last two consecutive chunks share only 2
characters, not `overlap = 3`. -/
theorem c9_overlap_counterexample :
    get_chunks "abcdefghij".toList 5 3 =
        some ["abcde".toList, "cdefg".toList, "efghi".toList, "ghij".toList, "ij".toList] ∧
      chunkSpans ["abcde".toList, "cdefg".toList, "efghi".toList, "ghij".toList,
          "ij".toList] (5 - 3) = [(0, 5), (2, 7), (4, 9), (6, 10), (8, 10)] ∧
      spanInterLen (6, 10) (8, 10) ≠ 3 := by
  refine ⟨?_, ?_, ?_⟩ <;> decide

/-- C9 (amended): for every text and `0 ≤ overlap < size`, the chunk spans
cover `[0, len(text))`; and consecutive chunks overlap in exactly `overlap`
characters whenever the earlier chunk is unclipped (its nominal window
`i*(size-overlap) + size` fits in the text) — at the clipped tail the shared
region can be shorter, as the counterexample shows. -/
theorem c9_coverage_overlap (text : List Char) (size overlap : ℕ) (h : overlap < size) :
    ∃ l, get_chunks text (size : ℤ) (overlap : ℤ) = some l ∧
      (∀ pos, pos < text.length →
        ∃ p ∈ chunkSpans l (size - overlap), p.1 ≤ pos ∧ pos < p.2) ∧
      (∀ i s t, (chunkSpans l (size - overlap))[i]? = some s →
        (chunkSpans l (size - overlap))[i + 1]? = some t →
        i * (size - overlap) + size ≤ text.length →
        spanInterLen s t = overlap) := by
  have hstep : 0 < size - overlap := by omega
  refine ⟨chunkSpec text size (size - overlap) 0, get_chunks_valid text size overlap h,
    ?_, ?_⟩
  · intro pos hpos
    have hc : (text.length - 0 + (size - overlap - 1)) / (size - overlap) =
        (text.length - 1) / (size - overlap) + 1 := by
      have he : text.length - 0 + (size - overlap - 1) =
          (text.length - 1) + (size - overlap) := by omega
      rw [he, Nat.add_div_right _ hstep]
    have hi : pos / (size - overlap) < (text.length - 0 + (size - overlap - 1)) /
        (size - overlap) := by
      have h1 : pos / (size - overlap) ≤ (text.length - 1) / (size - overlap) :=
        Nat.div_le_div_right (by omega)
      omega
    have hchunk := chunkSpec_get text size (size - overlap) (pos / (size - overlap)) hi
    have hspan := chunkSpans_get (chunkSpec text size (size - overlap) 0)
      (size - overlap) (pos / (size - overlap)) _ hchunk
    refine ⟨(pos / (size - overlap) * (size - overlap),
      pos / (size - overlap) * (size - overlap) +
        ((text.drop (pos / (size - overlap) * (size - overlap))).take size).length), ?_, ?_, ?_⟩
    · rcases List.getElem?_eq_some.mp hspan with ⟨hlt, hval⟩
      exact hval ▸ List.getElem_mem hlt
    · exact Nat.div_mul_le_self pos (size - overlap)
    · rw [List.length_take, List.length_drop]
      have hdm := Nat.div_add_mod pos (size - overlap)
      have hmlt : pos % (size - overlap) < size - overlap := Nat.mod_lt pos hstep
      have hcomm : (size - overlap) * (pos / (size - overlap)) =
          pos / (size - overlap) * (size - overlap) := Nat.mul_comm _ _
      omega
  · intro i s t hs ht hfit
    rcases chunkSpans_get_inv _ _ _ _ hs with ⟨c1, hc1, hseq⟩
    rcases chunkSpans_get_inv _ _ _ _ ht with ⟨c2, hc2, hteq⟩
    rcases chunkSpec_get_inv text size (size - overlap) i c1 hc1 with ⟨hi1, he1⟩
    rcases chunkSpec_get_inv text size (size - overlap) (i + 1) c2 hc2 with ⟨hi2, he2⟩
    subst hseq hteq he1 he2
    rw [spanInterLen]
    simp only [List.length_take, List.length_drop]
    have hmul : (i + 1) * (size - overlap) = i * (size - overlap) + (size - overlap) :=
      Nat.succ_mul i (size - overlap)
    omega

theorem c9_coverage_overlap_witness :
    3 < 5 ∧
      ∃ l, get_chunks "abcdefghij".toList 5 3 = some l ∧
        (∀ pos, pos < "abcdefghij".toList.length →
          ∃ p ∈ chunkSpans l (5 - 3), p.1 ≤ pos ∧ pos < p.2) ∧
        (∀ i s t, (chunkSpans l (5 - 3))[i]? = some s →
          (chunkSpans l (5 - 3))[i + 1]? = some t →
          i * (5 - 3) + 5 ≤ "abcdefghij".toList.length →
          spanInterLen s t = 3) :=
  ⟨by decide, c9_coverage_overlap "abcdefghij".toList 5 3 (by decide)⟩

/-- C2 counterexample: a one-chunk index queried with `k = 2`: instead of
clamping to one result, the call fails with `torch.topk`'s out-of-range
error. -/
theorem c2_clamp_counterexample :
    search_best_chunks (fun _ => [(1 : ℚ)]) (fun _ v => v.headD 0) "q"
        [[(1 : ℚ)]] ["a"] 2 =
      Except.error "selected index k out of range" := rfl

/-- C2 (amended): with the index aligned (`len(matrix) = len(chunks)`),
`search_best_chunks` returns exactly `k` pairs when `k ≤ len(chunks)`; when
`k > len(chunks)` it does not clamp to `len(chunks)` but fails with
`torch.topk`'s out-of-range error. -/
theorem c2_result_length (encode : String → List ℚ) (cos_sim : List ℚ → List ℚ → ℚ)
    (query : String) (db_vectors : List (List ℚ)) (chunks : List String) (k : ℕ)
    (hlen : db_vectors.length = chunks.length) :
    (k ≤ chunks.length →
      ∃ r, search_best_chunks encode cos_sim query db_vectors chunks k = Except.ok r ∧
        r.length = k) ∧
    (chunks.length < k →
      search_best_chunks encode cos_sim query db_vectors chunks k =
        Except.error "selected index k out of range") := by
  have hslen : (db_vectors.map (cos_sim (encode query))).length = chunks.length := by
    rw [List.length_map, hlen]
  constructor
  · intro hk
    have htk : torchTopk (db_vectors.map (cos_sim (encode query))) k =
        Except.ok ((List.insertionSort rankLE
          (db_vectors.map (cos_sim (encode query))).enum).take k) := by
      rw [torchTopk, if_pos (by omega)]
    have hmem : ∀ p ∈ (List.insertionSort rankLE
        (db_vectors.map (cos_sim (encode query))).enum).take k, p.1 < chunks.length := by
      intro p hp
      have h1 := List.mem_of_mem_take hp
      have h2 := (List.perm_insertionSort rankLE _).mem_iff.mp h1
      have h3 := List.mem_enum_iff_getElem?.mp h2
      rcases List.getElem?_eq_some.mp h3 with ⟨hlt, _⟩
      omega
    rcases packResults_total chunks _ hmem with ⟨r, hr, hrlen⟩
    refine ⟨r, ?_, ?_⟩
    · simp only [search_best_chunks]
      rw [htk]
      exact hr
    · rw [hrlen, List.length_take]
      have hp := (List.perm_insertionSort rankLE
        (db_vectors.map (cos_sim (encode query))).enum).length_eq
      rw [List.enum_length] at hp
      omega
  · intro hk
    have htk : torchTopk (db_vectors.map (cos_sim (encode query))) k =
        Except.error "selected index k out of range" := by
      rw [torchTopk, if_neg (by omega)]
    simp only [search_best_chunks]
    rw [htk]

theorem c2_result_length_witness :
    ([[(1 : ℚ)], [(2 : ℚ)]].length = (["a", "b"] : List String).length) ∧
      ((1 ≤ (["a", "b"] : List String).length →
        ∃ r, search_best_chunks (fun _ => [(1 : ℚ)]) (fun _ v => v.headD 0) "q"
            [[(1 : ℚ)], [(2 : ℚ)]] ["a", "b"] 1 = Except.ok r ∧ r.length = 1) ∧
      ((["a", "b"] : List String).length < 1 →
        search_best_chunks (fun _ => [(1 : ℚ)]) (fun _ v => v.headD 0) "q"
            [[(1 : ℚ)], [(2 : ℚ)]] ["a", "b"] 1 =
          Except.error "selected index k out of range")) :=
  ⟨rfl, c2_result_length (fun _ => [(1 : ℚ)]) (fun _ v => v.headD 0) "q"
    [[(1 : ℚ)], [(2 : ℚ)]] ["a", "b"] 1 rfl⟩

/-- C3 counterexample: `search` on an empty matrix and empty chunk list (with
the default `k = 3`) fails, but with `torch.topk`'s generic out-of-range
runtime error — the code has no `EmptyIndex` failure at all. -/
theorem c3_empty_index_counterexample :
    search_best_chunks (fun _ => [(1 : ℚ)]) (fun _ v => v.headD 0) "q" [] [] 3 =
        Except.error "selected index k out of range" ∧
      "selected index k out of range" ≠ "EmptyIndex" := by
  constructor
  · rfl
  · decide

/-- C3 (amended): for every positive `k`, `search` on an empty matrix and
empty chunk list fails — but with `torch.topk`'s generic out-of-range error,
not a distinguished `EmptyIndex` condition. -/
theorem c3_empty_index (encode : String → List ℚ) (cos_sim : List ℚ → List ℚ → ℚ)
    (query : String) (k : ℕ) (hk : 0 < k) :
    search_best_chunks encode cos_sim query [] [] k =
      Except.error "selected index k out of range" := by
  simp only [search_best_chunks, List.map_nil]
  rw [torchTopk, if_neg (by simp; omega)]

theorem c3_empty_index_witness :
    0 < 3 ∧ search_best_chunks (fun _ => [(1 : ℚ)]) (fun _ v => v.headD 0) "q" [] [] 3 =
      Except.error "selected index k out of range" :=
  ⟨by decide, c3_empty_index (fun _ => [(1 : ℚ)]) (fun _ v => v.headD 0) "q" 3 (by decide)⟩

/-- C8: every successful `search_best_chunks` call returns its pairs in
non-increasing score order, and each returned pair is the chunk at some
index of the chunk list together with that same index's own similarity
score. -/
theorem c8_sorted_and_paired (encode : String → List ℚ) (cos_sim : List ℚ → List ℚ → ℚ)
    (query : String) (db_vectors : List (List ℚ)) (chunks : List String) (k : ℕ)
    (r : List (String × ℚ))
    (hok : search_best_chunks encode cos_sim query db_vectors chunks k = Except.ok r) :
    List.Pairwise (fun a b : String × ℚ => b.2 ≤ a.2) r ∧
      ∀ q ∈ r, ∃ i : ℕ, chunks[i]? = some q.1 ∧
        (db_vectors.map (cos_sim (encode query)))[i]? = some q.2 := by
  simp only [search_best_chunks] at hok
  cases htk : torchTopk (db_vectors.map (cos_sim (encode query))) k with
  | error e =>
    rw [htk] at hok
    cases hok
  | ok tr =>
    rw [htk] at hok
    rcases torchTopk_ok _ _ _ htk with ⟨hkle, hsort, hlen, hscores⟩
    have hF := packResults_ok chunks tr r hok
    constructor
    · have h1 : List.Pairwise (fun x y : ℚ => y ≤ x) (tr.map Prod.snd) :=
        List.pairwise_map.mpr (hsort.imp (fun hab => by
          rcases hab with hlt | ⟨heq, _⟩
          · exact le_of_lt hlt
          · exact le_of_eq heq.symm))
      rw [forall2_map_snd hF] at h1
      exact List.pairwise_map.mp h1
    · intro q hq
      rcases forall2_mem_right hF q hq with ⟨p, hp, hpq⟩
      exact ⟨p.1, hpq.1, hpq.2 ▸ hscores p hp⟩

theorem c8_sorted_and_paired_witness :
    search_best_chunks (fun _ => [(1 : ℚ)]) (fun _ v => v.headD 0) "q"
        [[(1 : ℚ)], [(2 : ℚ)]] ["a", "b"] 2 =
      Except.ok [("b", (2 : ℚ)), ("a", (1 : ℚ))] ∧
      (List.Pairwise (fun a b : String × ℚ => b.2 ≤ a.2)
          [("b", (2 : ℚ)), ("a", (1 : ℚ))] ∧
        ∀ q ∈ [("b", (2 : ℚ)), ("a", (1 : ℚ))], ∃ i : ℕ,
          (["a", "b"] : List String)[i]? = some q.1 ∧
          ([[(1 : ℚ)], [(2 : ℚ)]].map ((fun _ v => v.headD 0 :
            List ℚ → List ℚ → ℚ) ((fun _ => [(1 : ℚ)] : String → List ℚ) "q")))[i]? =
            some q.2) :=
  ⟨rfl, c8_sorted_and_paired (fun _ => [(1 : ℚ)]) (fun _ v => v.headD 0) "q"
    [[(1 : ℚ)], [(2 : ℚ)]] ["a", "b"] 2 [("b", (2 : ℚ)), ("a", (1 : ℚ))] rfl⟩

end RAG
